import Mathlib

/-!
Verification of the layout-aware table extraction and fuzzy-correction engine
of the quiz marker (source: `src/app.ts`).

The development shallowly embeds the functions `extractTableAnswers`,
`levenshteinDistance`, `normalizeForComparison`, `calculateSimilarity` and
`applyOCRCorrections`.  JavaScript records keyed by question identifiers
`"Q<n>"` are modelled as association lists over the numeric part `n`
(`AMap`), with JavaScript insertion-order and truthiness semantics
(`setRec`, `getRec`, `mapTruthy`).  JavaScript numbers appearing as
similarity scores are modelled as exact fractions (`Frac`), compared by
integer cross-multiplication; all definitions are kernel-computable.
-/

/-! ## JavaScript string primitives -/

/-- Characters treated as whitespace (the ASCII part of the JS `\s` class
and of `String.prototype.trim`). -/
def jsWhitespaceChar (c : Char) : Bool :=
  c = ' ' || c = '\t' || c = '\n' || c = '\r' || c = '\x0b' || c = '\x0c'

/-- Character-wise model of `String.prototype.toUpperCase` (ASCII range). -/
def jsUpperChar (c : Char) : Char :=
  if 'a' ≤ c && c ≤ 'z' then Char.ofNat (c.toNat - 32) else c

/-- Uppercase letters and digits, the characters kept by the regex
`[^A-Z0-9]` replacement in `normalizeForComparison`. -/
def isUpperAlnumChar (c : Char) : Bool :=
  ('A' ≤ c && c ≤ 'Z') || ('0' ≤ c && c ≤ '9')

/-- `String.prototype.trim` on a character list. -/
def jsTrimList (l : List Char) : List Char :=
  ((l.dropWhile jsWhitespaceChar).reverse.dropWhile jsWhitespaceChar).reverse

/-- `String.prototype.trim`. -/
def jsTrimStr (s : String) : String :=
  String.mk (jsTrimList s.toList)

/-- `text.toUpperCase().replace(/[^A-Z0-9]/g, "").trim()`
(source: `normalizeForComparison`, app.ts lines 730-735). -/
def normalizeForComparison (text : String) : String :=
  String.mk (jsTrimList ((text.toList.map jsUpperChar).filter isUpperAlnumChar))

/-- `String.prototype.toUpperCase` on a whole string (character-wise). -/
def jsToUpperStr (s : String) : String :=
  String.mk (s.toList.map jsUpperChar)

/-- `s.startsWith(pre)`. -/
def jsStartsWith (s pre : String) : Bool :=
  pre.toList.isPrefixOf s.toList

/-- `s.includes(sub)`. -/
def jsIncludes (s sub : String) : Bool :=
  (List.range (s.toList.length + 1)).any fun i => sub.toList.isPrefixOf (s.toList.drop i)

/-- `s.substring(i)` (JS clamps the index, so this is total). -/
def jsSubstringFrom (s : String) (i : Nat) : String :=
  String.mk (s.toList.drop i)

/-- ASCII digits. -/
def isDigitChar (c : Char) : Bool :=
  '0' ≤ c && c ≤ '9'

/-- Value of a digit run. -/
def digitsToNat (ds : List Char) : Nat :=
  ds.foldl (fun a c => a * 10 + (c.toNat - 48)) 0

/-- `parseInt(s, 10)`: skip leading whitespace, optional sign, then the
longest digit prefix; `none` models `NaN`. -/
def jsParseInt (s : String) : Option Int :=
  let l := s.toList.dropWhile jsWhitespaceChar
  match l with
  | '-' :: rest =>
      match rest.takeWhile isDigitChar with
      | [] => none
      | ds => some (-(digitsToNat ds : Int))
  | '+' :: rest =>
      match rest.takeWhile isDigitChar with
      | [] => none
      | ds => some (digitsToNat ds)
  | _ =>
      match l.takeWhile isDigitChar with
      | [] => none
      | ds => some (digitsToNat ds)

/-- The regex `^(\d+)\s` of the row parser: a leading digit run followed by a
whitespace character. -/
def leadingNumber (s : String) : Option Nat :=
  let l := s.toList
  match l.takeWhile isDigitChar with
  | [] => none
  | ds =>
      match l.drop ds.length with
      | c :: _ => if jsWhitespaceChar c then some (digitsToNat ds) else none
      | [] => none

/-- `str2.split("/")` on a character list (JS semantics: `"".split` gives
`[""]`, a trailing delimiter gives a trailing empty piece). -/
def splitSlash : List Char → List (List Char)
  | [] => [[]]
  | c :: rest =>
      match splitSlash rest with
      | [] => [[c]]
      | h :: t => if c = '/' then [] :: h :: t else (c :: h) :: t

/-! ## Answer maps

JavaScript records keyed by `"Q<n>"` are modelled by association lists over
`n`.  Assignment to a present key updates in place, assignment to a fresh key
appends (JS insertion order); lookups return the first match. -/

/-- Maps from question number to answer text. -/
abbrev AMap := List (Nat × String)

/-- Record lookup `m["Q<n>"]`. -/
def getRec : AMap → Nat → Option String
  | [], _ => none
  | (k, v) :: rest, n => if k = n then some v else getRec rest n

/-- Record assignment `m["Q<n>"] = v`. -/
def setRec : AMap → Nat → String → AMap
  | [], n, v => [(n, v)]
  | (k, w) :: rest, n, v =>
      if k = n then (k, v) :: rest else (k, w) :: setRec rest n v

/-- JS truthiness of `m["Q<n>"]`: present and not the empty string. -/
def mapTruthy (m : AMap) (n : Nat) : Bool :=
  match getRec m n with
  | some v => v != ""
  | none => false

/-- Keys of a map. -/
def keysOf (m : AMap) : List Nat :=
  m.map Prod.fst

/-- Insert into a sorted list, before the first element that is not smaller
(stable insertion). -/
def insertSorted {α : Type} (le : α → α → Bool) (x : α) : List α → List α
  | [] => [x]
  | y :: t => if le x y then x :: y :: t else y :: insertSorted le x t

/-- Stable insertion sort, the model of the JS stable `Array.prototype.sort`
(for a total preorder comparator the stable-sorted list is unique, so any
stable sort is a faithful model). -/
def stableSort {α : Type} (le : α → α → Bool) : List α → List α
  | [] => []
  | x :: t => insertSorted le x (stableSort le t)

/-! ## Levenshtein distance

`levenshteinDistance` (app.ts lines 701-725) fills a `(len1+1) x (len2+1)`
matrix row by row; row `0` is `0..len2`, entry `j` of row `i` is the minimum
of deletion (`up+1`), insertion (`left+1`) and substitution (`diag+cost`).
The embedding computes the same rows; `levRowAux` walks one row keeping the
entry above (`up`), above-left (`diag`) and to the left (`left`). -/

/-- Remaining entries of one matrix row (entries `1..len2`). -/
def levRowAux (c1 : Char) : List Char → List Nat → Nat → Nat → List Nat
  | [], _, _, _ => []
  | _ :: _, [], _, _ => []
  | c2 :: cs, up :: ps, diag, left =>
      let cost := if c1 = c2 then 0 else 1
      let cur := Nat.min (up + 1) (Nat.min (left + 1) (diag + cost))
      cur :: levRowAux c1 cs ps up cur

/-- Matrix row `i`, computed from row `i - 1`. -/
def levRow (c1 : Char) (cs2 : List Char) (prev : List Nat) (i : Nat) : List Nat :=
  match prev with
  | [] => [i]
  | diag :: rest => i :: levRowAux c1 cs2 rest diag i

/-- All remaining matrix rows. -/
def levRows : List Char → List Char → List Nat → Nat → List Nat
  | [], _, row, _ => row
  | c :: cs, cs2, row, i => levRows cs cs2 (levRow c cs2 row i) (i + 1)

/-- `levenshteinDistance(str1, str2)`: the bottom-right matrix entry. -/
def levenshteinDistance (str1 str2 : String) : Nat :=
  let cs1 := str1.toList
  let cs2 := str2.toList
  let row0 := List.range (cs2.length + 1)
  (levRows cs1 cs2 row0 1).getLastD 0

/-! ## Similarity scores

JS number values produced by `1 - distance / maxLen` are modelled as exact
fractions with positive denominator; comparisons are by integer
cross-multiplication, which agrees with the rational order. -/

/-- An unreduced fraction `num / den`. -/
structure Frac where
  num : Int
  den : Int
deriving DecidableEq

/-- Cross-multiplication order (sound for positive denominators). -/
def Frac.ltb (a b : Frac) : Bool :=
  a.num * b.den < b.num * a.den

/-- Cross-multiplication order (sound for positive denominators). -/
def Frac.leb (a b : Frac) : Bool :=
  a.num * b.den ≤ b.num * a.den

/-- Rational value of a fraction. -/
def Frac.toRat (a : Frac) : ℚ :=
  (a.num : ℚ) / (a.den : ℚ)

/-- The score `1 - d / maxLen` of `calculateSimilarity`. -/
def simVal (d maxLen : Nat) : Frac :=
  ⟨(maxLen : Int) - (d : Int), (maxLen : Int)⟩

/-- The constant `1.0`. -/
def fracOne : Frac := ⟨1, 1⟩

/-- The constant `0`. -/
def fracZero : Frac := ⟨0, 1⟩

/-- The loop of `calculateSimilarity` (app.ts lines 748-760): return `1.0` at
the first alternative whose normalization equals the candidate, skip empty
sides, otherwise keep the best score. -/
def simLoop (norm1 : String) : List String → Frac → Frac
  | [], best => best
  | norm2 :: rest, best =>
      if norm1 = norm2 then fracOne
      else if norm1.length = 0 ∨ norm2.length = 0 then simLoop norm1 rest best
      else
        let d := levenshteinDistance norm1 norm2
        let maxLen := Nat.max norm1.length norm2.length
        let sim := simVal d maxLen
        simLoop norm1 rest (if Frac.ltb best sim then sim else best)

/-- `str2.split("/").map((alt) => normalizeForComparison(alt.trim()))`. -/
def simAlternatives (str2 : String) : List String :=
  (splitSlash str2.toList).map fun alt => normalizeForComparison (jsTrimStr (String.mk alt))

/-- `calculateSimilarity(str1, str2)` (app.ts lines 741-763). -/
def calculateSimilarity (str1 str2 : String) : Frac :=
  simLoop (normalizeForComparison str1) (simAlternatives str2) fracZero

/-! ## Correction engine: pass 1 (merge detection)

Source: `applyOCRCorrections`, app.ts lines 784-836.  The bounded `for`
loops over question numbers are modelled by structural recursion on a fuel
counter while keeping the loop guard on the index itself; the engine always
starts the loops with enough fuel (`50`) for the guard to be what stops
them, so the fuel is only a termination measure. -/

/-- Inner loop of the merge detector (`for j = 1..50`): is there a later,
unused expected answer matching the remainder exactly or with similarity
above `0.8`? -/
def mergeRemainder (key : AMap) (used : List Nat) (remainder : String) (i : Nat) :
    Nat → Nat → Bool
  | 0, _ => false
  | fuel + 1, j =>
      if j ≤ 50 then
        match getRec key j with
        | none => mergeRemainder key used remainder i fuel (j + 1)
        | some nextAnswer =>
            if nextAnswer = "" ∨ j ∈ used ∨ j ≤ i then
              mergeRemainder key used remainder i fuel (j + 1)
            else
              let normalizedNext := normalizeForComparison nextAnswer
              if remainder = normalizedNext
                  ∨ Frac.ltb ⟨4, 5⟩ (calculateSimilarity remainder normalizedNext) then
                true
              else mergeRemainder key used remainder i fuel (j + 1)
      else false

/-- Outer loop of the merge detector (`for i = 1..50`): the first unused
expected answer that is a strict prefix of the extracted text and whose
remainder matches a later expected answer. -/
def mergeScan (key : AMap) (used : List Nat) (normalized : String) :
    Nat → Nat → Option (Nat × String)
  | 0, _ => none
  | fuel + 1, i =>
      if i ≤ 50 then
        match getRec key i with
        | none => mergeScan key used normalized fuel (i + 1)
        | some correctAnswer =>
            if correctAnswer = "" ∨ i ∈ used then
              mergeScan key used normalized fuel (i + 1)
            else
              let normalizedCorrect := normalizeForComparison correctAnswer
              if jsStartsWith normalized normalizedCorrect
                  ∧ normalizedCorrect.length < normalized.length then
                let remainder := jsSubstringFrom normalized normalizedCorrect.length
                if mergeRemainder key used remainder i 50 1 then
                  some (i, correctAnswer)
                else mergeScan key used normalized fuel (i + 1)
              else mergeScan key used normalized fuel (i + 1)
      else none

/-- One entry of the first pass: write the first half of a detected merge and
mark it used, otherwise keep the extracted text. -/
def pass1Step (key : AMap) (st : AMap × List Nat) (e : Nat × String) : AMap × List Nat :=
  match mergeScan key st.2 (normalizeForComparison e.2) 50 1 with
  | some (i, correctAnswer) => (setRec st.1 e.1 correctAnswer, st.2 ++ [i])
  | none => (setRec st.1 e.1 e.2, st.2)

/-- First pass over all extracted entries, building `corrected` and
`usedAnswers`. -/
def pass1 (key : AMap) (answers : AMap) : AMap × List Nat :=
  answers.foldl (pass1Step key) ([], [])

/-! ## Correction engine: pass 2 (direct fuzzy correction)

Source: app.ts lines 838-894.  The low-similarity branch (`similarity <
0.5`) only searches nearby keys to emit a diagnostic log line and makes no
state change, so it is not modelled. -/

/-- One entry of the second pass: replace with the expected text when the
similarity is at least `0.85` and the normalized forms differ. -/
def pass2Step (key : AMap) (m : AMap) (e : Nat × String) : AMap :=
  match getRec key e.1 with
  | none => m
  | some expectedAnswer =>
      if expectedAnswer = "" then m
      else
        let sim := calculateSimilarity e.2 expectedAnswer
        if Frac.leb ⟨17, 20⟩ sim then
          if normalizeForComparison e.2 ≠ normalizeForComparison expectedAnswer then
            setRec m e.1 expectedAnswer
          else m
        else m

/-- Second pass: fold over a snapshot of the entries of `corrected`. -/
def pass2 (key : AMap) (corrected : AMap) : AMap :=
  List.foldl (pass2Step key) corrected corrected

/-! ## Correction engine: pass 3 (split detection and cascading shift)

Source: app.ts lines 896-1004.  The pass reads from the post-pass-2 map
`corrected` and writes into a copy `finalCorrected`; the `shifts` map of the
source is only used for logging and is not modelled. -/

/-- The cascading shift (`for shiftNum = qNum+1; shiftNum < 50`): while the
next slot's extracted text matches the current expected answer (similarity
above `0.7`, or starting with a `/`-alternative of it), write the expected
answer; a leftover after a matched alternative may satisfy the following
question. -/
def shiftLoop (key corrected : AMap) : Nat → Nat → AMap → AMap
  | 0, _, fc => fc
  | fuel + 1, shiftNum, fc =>
      if shiftNum < 50 then
        match getRec key shiftNum, getRec corrected (shiftNum + 1) with
        | some shiftExpected, some shiftNextExtracted =>
            if shiftExpected = "" ∨ shiftNextExtracted = "" then fc
            else
              let sim := calculateSimilarity shiftNextExtracted shiftExpected
              let normalizedExtracted := normalizeForComparison shiftNextExtracted
              let alternatives := (splitSlash shiftExpected.toList).map
                fun alt => normalizeForComparison (jsTrimStr (String.mk alt))
              let startsWithExpected :=
                alternatives.any fun alt => jsStartsWith normalizedExtracted alt
              if Frac.ltb ⟨7, 10⟩ sim ∨ startsWithExpected then
                let fc1 := setRec fc shiftNum shiftExpected
                let fc2 :=
                  if startsWithExpected then
                    match alternatives.find? (fun alt => jsStartsWith normalizedExtracted alt) with
                    | some matchedAlt =>
                        if matchedAlt ≠ "" ∧ matchedAlt.length < normalizedExtracted.length then
                          let remainder := jsTrimStr (jsSubstringFrom shiftNextExtracted matchedAlt.length)
                          match getRec key (shiftNum + 1) with
                          | some nextNextExpected =>
                              if remainder ≠ "" ∧ nextNextExpected ≠ "" then
                                if Frac.ltb ⟨7, 10⟩ (calculateSimilarity remainder nextNextExpected) then
                                  setRec fc1 (shiftNum + 1) nextNextExpected
                                else fc1
                              else fc1
                          | none => fc1
                        else fc1
                    | none => fc1
                  else fc1
                shiftLoop key corrected fuel (shiftNum + 1) fc2
              else fc
        | _, _ => fc
      else fc

/-- Third pass (`for qNum = 1..50`): when the extracted text is a strict
prefix (longer than 3 characters) of the expected answer and the next slot
carries the remainder, write the full expected answer, run the cascading
shift, and skip the consumed slot. -/
def pass3 (key corrected : AMap) : Nat → Nat → AMap → AMap
  | 0, _, fc => fc
  | fuel + 1, qNum, fc =>
      if qNum ≤ 50 then
        match getRec corrected qNum, getRec key qNum with
        | some extracted, some expected =>
            if extracted = "" ∨ expected = "" then pass3 key corrected fuel (qNum + 1) fc
            else
              let normalized := normalizeForComparison extracted
              let normalizedExpected := normalizeForComparison expected
              if jsStartsWith normalizedExpected normalized
                  ∧ normalized.length < normalizedExpected.length
                  ∧ 3 < normalized.length then
                match getRec corrected (qNum + 1) with
                | some nextExtracted =>
                    if nextExtracted = "" then pass3 key corrected fuel (qNum + 1) fc
                    else
                      let normalizedNext := normalizeForComparison nextExtracted
                      let remainder := jsSubstringFrom normalizedExpected normalized.length
                      if normalizedNext = remainder ∨ jsStartsWith normalizedNext remainder then
                        let fc1 := setRec fc qNum expected
                        let fc2 := shiftLoop key corrected 50 (qNum + 1) fc1
                        pass3 key corrected fuel (qNum + 2) fc2
                      else pass3 key corrected fuel (qNum + 1) fc
                | none => pass3 key corrected fuel (qNum + 1) fc
              else pass3 key corrected fuel (qNum + 1) fc
        | _, _ => pass3 key corrected fuel (qNum + 1) fc
      else fc

/-- `applyOCRCorrections(answers, answerKey)` (app.ts lines 768-1007):
without a key the map is returned unchanged; otherwise the three passes run
in order. -/
def applyOCRCorrections (answers : AMap) (answerKey : Option AMap) : AMap :=
  match answerKey with
  | none => answers
  | some key =>
      let corrected := (pass1 key answers).1
      let corrected2 := pass2 key corrected
      pass3 key corrected2 50 1 corrected2

/-! ## OCR block graph

The block shape used by `extractTableAnswers` (a subset of the document
analysis service's block type): identifier, type tag, cell row/column
indices, recognized word text, and CHILD relationships. -/

/-- A relationship to other blocks by identifier (the source field `Type` is
renamed `RelType`, since `Type` is a Lean keyword). -/
structure Relationship where
  RelType : String
  Ids : Option (List String)
deriving DecidableEq

/-- A recognized region. -/
structure Block where
  Id : Option String
  BlockType : Option String
  RowIndex : Option Nat
  ColumnIndex : Option Nat
  Text : Option String
  Relationships : Option (List Relationship)
deriving DecidableEq

/-- Index from identifier to block (`blockMap`): later blocks with the same
identifier overwrite earlier ones, as for a JS `Map`. -/
def setBlock : List (String × Block) → String → Block → List (String × Block)
  | [], i, b => [(i, b)]
  | (k, c) :: rest, i, b =>
      if k = i then (k, b) :: rest else (k, c) :: setBlock rest i b

/-- Lookup in the block index. -/
def getBlock : List (String × Block) → String → Option Block
  | [], _ => none
  | (k, c) :: rest, i => if k = i then some c else getBlock rest i

/-- `blockMap`: every block with a truthy `Id` is indexed. -/
def buildBlockMap (blocks : List Block) : List (String × Block) :=
  blocks.foldl
    (fun m b =>
      match b.Id with
      | some i => if i ≠ "" then setBlock m i b else m
      | none => m)
    []

/-- `getText(block)` (app.ts lines 544-558): concatenate the text of all
CHILD-related WORD blocks, joined by single spaces, trimmed. -/
def getText (bm : List (String × Block)) (block : Option Block) : String :=
  match block with
  | none => ""
  | some b =>
      match b.Relationships with
      | none => ""
      | some rels =>
          let textRuns := rels.foldl
            (fun acc rel =>
              if rel.RelType = "CHILD" then
                acc ++ ((rel.Ids.getD []).filterMap fun cid =>
                  match getBlock bm cid with
                  | some child =>
                      if child.BlockType = some "WORD" then
                        match child.Text with
                        | some t => if t ≠ "" then some t else none
                        | none => none
                      else none
                  | none => none)
              else acc)
            []
          jsTrimStr (String.intercalate " " textRuns)

/-! ## Row parser (app.ts lines 597-684) -/

/-- Question-number resolution for columns 1-3 (app.ts lines 615-643):
(a) the printed number cell, if it parses to `1..25` and that slot is not
yet truthy; if it parses in range but the slot is taken, the fallbacks on
the question-text cell are skipped; (b) otherwise leading digits of the
question-text cell, in range and unassigned; (c) otherwise the running
counter, when the answer text is non-empty and the counter is at most 25. -/
def resolveQNum1 (answers : AMap) (numText qText ansText : String) (exp1 : Nat) : Option Nat :=
  let base : Option Nat :=
    match jsParseInt (jsTrimStr numText) with
    | some p =>
        if 0 < p ∧ p ≤ 25 then
          if mapTruthy answers p.toNat then none else some p.toNat
        else
          match leadingNumber (jsTrimStr qText) with
          | some ex => if 0 < ex ∧ ex ≤ 25 ∧ ¬mapTruthy answers ex then some ex else none
          | none => none
    | none =>
        match leadingNumber (jsTrimStr qText) with
        | some ex => if 0 < ex ∧ ex ≤ 25 ∧ ¬mapTruthy answers ex then some ex else none
        | none => none
  match base with
  | some n => some n
  | none => if ansText ≠ "" ∧ exp1 ≤ 25 then some exp1 else none

/-- Question-number resolution for columns 4-6 (app.ts lines 660-674): the
printed number cell if it parses to `26..50` (with no check of the question
text cell and no check whether the slot is taken), otherwise the running
counter when the answer text is non-empty and the counter is at most 50. -/
def resolveQNum2 (numText ansText : String) (exp2 : Nat) : Option Nat :=
  let base : Option Nat :=
    match jsParseInt (jsTrimStr numText) with
    | some p => if 26 ≤ p ∧ p ≤ 50 then some p.toNat else none
    | none => none
  match base with
  | some n => some n
  | none => if ansText ≠ "" ∧ exp2 ≤ 50 then some exp2 else none

/-- Store step shared by both column-groups (app.ts lines 646-656 and
677-683): record when a resolved number exists, is at most the cap, the
answer is non-empty and the slot is not truthy; advance the counter.  The
first group additionally advances the counter on an empty answer while the
counter is in `19..22` (a debug branch of the source). -/
def storeAnswer (answers : AMap) (qNum : Option Nat) (ansText : String) (maxQ : Nat)
    (exp : Nat) (debugAdvance : Bool) : AMap × Nat :=
  match qNum with
  | some q =>
      if q ≠ 0 ∧ q ≤ maxQ ∧ ansText ≠ "" ∧ ¬mapTruthy answers q then
        (setRec answers q ansText, q + 1)
      else if ansText ≠ "" then (answers, exp + 1)
      else if debugAdvance ∧ 19 ≤ exp ∧ exp ≤ 22 then (answers, exp + 1)
      else (answers, exp)
  | none =>
      if ansText ≠ "" then (answers, exp + 1)
      else if debugAdvance ∧ 19 ≤ exp ∧ exp ≤ 22 then (answers, exp + 1)
      else (answers, exp)

/-- Process one table row (app.ts lines 597-684): sort the cells by column
index, skip rows without exactly six cells, skip header rows whose third or
sixth column contains "ANSWER", then handle the two column-groups. -/
def processRow (bm : List (String × Block)) (maxQ : Nat) (st : AMap × Nat × Nat)
    (rowCells : List Block) : AMap × Nat × Nat :=
  let sortedCells := stableSort (fun a b => (a.ColumnIndex.getD 0) ≤ (b.ColumnIndex.getD 0)) rowCells
  match sortedCells with
  | [c1, c2, c3, _c4, _c5, c6] =>
      let (answers, exp1, exp2) := st
      let col3 := jsToUpperStr (getText bm (some c3))
      let col6 := jsToUpperStr (getText bm (some c6))
      if jsIncludes col3 "ANSWER" ∨ jsIncludes col6 "ANSWER" then st
      else
        let answer1 := getText bm (some c3)
        let qNum1 := resolveQNum1 answers (getText bm (some c1)) (getText bm (some c2)) answer1 exp1
        let (answers1, exp1') := storeAnswer answers qNum1 answer1 maxQ exp1 true
        let answer2 := getText bm (some c6)
        let qNum2 := resolveQNum2 (getText bm (some _c4)) answer2 exp2
        let (answers2, exp2') := storeAnswer answers1 qNum2 answer2 maxQ exp2 false
        (answers2, exp1', exp2')
  | _ => st

/-- Group the CELL blocks of one table by row index, preserving first-seen
order of rows (a JS `Map`), then sort rows by index. -/
def addToRow (rows : List (Nat × List Block)) (r : Nat) (b : Block) : List (Nat × List Block) :=
  match rows with
  | [] => [(r, [b])]
  | (k, cs) :: rest => if k = r then (k, cs ++ [b]) :: rest else (k, cs) :: addToRow rest r b

/-- Distinct identifiers in first-seen order (a JS `Set`). -/
def dedup (l : List String) : List String :=
  l.foldl (fun acc i => if i ∈ acc then acc else acc ++ [i]) []

/-- Process one TABLE block (app.ts lines 564-685): collect its CELL
children, group them into rows, and fold the row parser over the rows with
the two counters starting at 1 and 26. -/
def processTable (bm : List (String × Block)) (maxQ : Nat) (answers : AMap)
    (table : Block) : AMap :=
  let cellIds := dedup (((table.Relationships.getD []).filter
    fun rel => rel.RelType = "CHILD").foldl (fun acc rel => acc ++ rel.Ids.getD []) [])
  let cells := (cellIds.filterMap (getBlock bm)).filter fun b => b.BlockType = some "CELL"
  let rowMap := cells.foldl (fun rows c => addToRow rows (c.RowIndex.getD 0) c) []
  let sortedRows := stableSort (fun a b => a.1 ≤ b.1) rowMap
  let (answers', _, _) :=
    sortedRows.foldl (fun st row => processRow bm maxQ st row.2) (answers, 1, 26)
  answers'

/-- The raw table pass of `extractTableAnswers` (app.ts lines 527-687),
before any correction. -/
def rawTableAnswers (blocks : List Block) (maxQ : Nat) : AMap :=
  let bm := buildBlockMap blocks
  (blocks.filter fun b => b.BlockType = some "TABLE").foldl (processTable bm maxQ) []

/-- `extractTableAnswers(blocks, maxQ, answerKey)` (app.ts lines 527-696):
the raw table pass, then OCR corrections when an answer key is provided. -/
def extractTableAnswers (blocks : List Block) (maxQ : Nat) (answerKey : Option AMap) : AMap :=
  let answers := rawTableAnswers blocks maxQ
  match answerKey with
  | some key => applyOCRCorrections answers (some key)
  | none => answers

/-! ## Definitions used by individual claims (scenario fixtures, checked
variants, and claim-side resolvers) -/

/-- Resolution priority as claim C3 states it, for a column-group with valid
range `lo..hi`: (a) the printed number cell, in range and unassigned;
(b) a printed number in range but already assigned is unusable and resolution
falls through; (c) leading digits of the question-text cell, in range and
unassigned; (d) the running counter when the answer text is non-empty. -/
def claimResolve (answers : AMap) (numText qText ansText : String) (exp : Nat)
    (lo hi : Int) : Option Nat :=
  let fromText : Option Nat :=
    match leadingNumber (jsTrimStr qText) with
    | some ex =>
        if lo ≤ (ex : Int) ∧ (ex : Int) ≤ hi ∧ ¬mapTruthy answers ex then some ex else none
    | none => none
  let seq : Option Nat := if ansText ≠ "" then some exp else none
  match jsParseInt (jsTrimStr numText) with
  | some p =>
      if lo ≤ p ∧ p ≤ hi then
        if ¬mapTruthy answers p.toNat then some p.toNat
        else match fromText with | some n => some n | none => seq
      else match fromText with | some n => some n | none => seq
  | none => match fromText with | some n => some n | none => seq

/-- Columns 1-3 resolution as the code implements it: as claim C3, except
that a printed number in range whose slot is taken skips the question-text
fallback and goes straight to the counter, and the counter requires
`exp1 ≤ 25`. -/
def amendedResolve1 (answers : AMap) (numText qText ansText : String) (exp1 : Nat) :
    Option Nat :=
  let seq : Option Nat := if ansText ≠ "" ∧ exp1 ≤ 25 then some exp1 else none
  match jsParseInt (jsTrimStr numText) with
  | some p =>
      if 0 < p ∧ p ≤ 25 then
        if ¬mapTruthy answers p.toNat then some p.toNat else seq
      else
        match leadingNumber (jsTrimStr qText) with
        | some ex => if 0 < ex ∧ ex ≤ 25 ∧ ¬mapTruthy answers ex then some ex else seq
        | none => seq
  | none =>
      match leadingNumber (jsTrimStr qText) with
      | some ex => if 0 < ex ∧ ex ≤ 25 ∧ ¬mapTruthy answers ex then some ex else seq
      | none => seq

/-- Columns 4-6 resolution as the code implements it: the printed number in
range `26..50` is used regardless of assignment, the question-text cell is
never consulted, and otherwise the counter is used when the answer text is
non-empty and the counter is at most 50. -/
def amendedResolve2 (numText ansText : String) (exp2 : Nat) : Option Nat :=
  let seq : Option Nat := if ansText ≠ "" ∧ exp2 ≤ 50 then some exp2 else none
  match jsParseInt (jsTrimStr numText) with
  | some p => if 26 ≤ p ∧ p ≤ 50 then some p.toNat else seq
  | none => seq

/-- Answer key of the merge scenario. -/
def mergeKey : AMap :=
  [(36, "BACK"), (37, "STABBERS"), (38, "EAGLE"), (39, "FALCON"), (40, "GROUSE"),
   (41, "HERON"), (42, "KITE"), (43, "LARK"), (44, "MAGPIE"), (45, "NIGHTJAR"),
   (46, "OSPREY"), (47, "PUFFIN"), (48, "ROBIN"), (49, "SISKIN"), (50, "TERN")]

/-- Extracted map of the merge scenario: `Q36` merged, `Q37..Q49` displaced
one slot up, `Q50` with leftover content. -/
def mergeExtracted : AMap :=
  [(36, "BACK STABBERS"), (37, "EAGLE"), (38, "FALCON"), (39, "GROUSE"), (40, "HERON"),
   (41, "KITE"), (42, "LARK"), (43, "MAGPIE"), (44, "NIGHTJAR"), (45, "OSPREY"),
   (46, "PUFFIN"), (47, "ROBIN"), (48, "SISKIN"), (49, "TERN"), (50, "XYLOPHONE")]

/-- No entry of `m` normalizes to a strict extension of any expected answer
of the key: under this condition the merge detector can never fire. -/
def noMergePrefix (m key : AMap) : Bool :=
  m.all fun p =>
    (List.range 51).all fun i =>
      match getRec key i with
      | some e =>
          !(e != "" && jsStartsWith (normalizeForComparison p.2) (normalizeForComparison e)
            && decide ((normalizeForComparison e).length < (normalizeForComparison p.2).length))
      | none => true

/-- A value taken verbatim from the answer key (all correction-pass writes
are guarded to be truthy key entries). -/
def keyValue (key : AMap) (v : String) : Prop :=
  ∃ j, getRec key j = some v ∧ v ≠ ""

/-- A WORD block. -/
def wordBlock (i t : String) : Block :=
  { Id := some i, BlockType := some "WORD", RowIndex := none, ColumnIndex := none,
    Text := some t, Relationships := none }

/-- A CELL block with its WORD children. -/
def cellBlock (i : String) (r c : Nat) (wordIds : List String) : Block :=
  { Id := some i, BlockType := some "CELL", RowIndex := some r, ColumnIndex := some c,
    Text := none, Relationships := some [⟨"CHILD", some wordIds⟩] }

/-- One six-column table row: `["1", "Capital of France", "CRUEL SUMMER",
"26", "X", "MONEY"]`. -/
def fixtureBlocks : List Block :=
  [{ Id := some "t1", BlockType := some "TABLE", RowIndex := none, ColumnIndex := none,
     Text := none,
     Relationships := some [⟨"CHILD", some ["c1", "c2", "c3", "c4", "c5", "c6"]⟩] },
   cellBlock "c1" 1 1 ["w1"], cellBlock "c2" 1 2 ["w2", "w3"], cellBlock "c3" 1 3 ["w4", "w5"],
   cellBlock "c4" 1 4 ["w6"], cellBlock "c5" 1 5 ["w7"], cellBlock "c6" 1 6 ["w8"],
   wordBlock "w1" "1", wordBlock "w2" "Capital", wordBlock "w3" "of France",
   wordBlock "w4" "CRUEL", wordBlock "w5" "SUMMER", wordBlock "w6" "26",
   wordBlock "w7" "X", wordBlock "w8" "MONEY"]

/-- Row walk of the checked Levenshtein matrix: `none` models a missing
matrix entry. -/
def levRowAuxChecked (c1 : Char) : List Char → List Nat → Nat → Nat → Option (List Nat)
  | [], _, _, _ => some []
  | _ :: _, [], _, _ => none
  | c2 :: cs, up :: ps, diag, left =>
      let cost := if c1 = c2 then 0 else 1
      let cur := Nat.min (up + 1) (Nat.min (left + 1) (diag + cost))
      match levRowAuxChecked c1 cs ps up cur with
      | some rest => some (cur :: rest)
      | none => none

/-- Checked matrix row. -/
def levRowChecked (c1 : Char) (cs2 : List Char) (prev : List Nat) (i : Nat) :
    Option (List Nat) :=
  match prev with
  | [] => none
  | diag :: rest => (levRowAuxChecked c1 cs2 rest diag i).map (i :: ·)

/-- Checked matrix rows. -/
def levRowsChecked : List Char → List Char → Option (List Nat) → Nat → Option (List Nat)
  | [], _, row, _ => row
  | c :: cs, cs2, row, i =>
      match row with
      | some r => levRowsChecked cs cs2 (levRowChecked c cs2 r i) (i + 1)
      | none => none

/-- Checked `levenshteinDistance`: every matrix access is verified. -/
def levenshteinDistanceChecked (str1 str2 : String) : Option Nat :=
  let cs1 := str1.toList
  let cs2 := str2.toList
  let row0 := List.range (cs2.length + 1)
  match levRowsChecked cs1 cs2 (some row0) 1 with
  | some row => row.getLast?
  | none => none

/-! ## Basic lemmas about maps and characters -/

theorem char_le_iff_toNat {a b : Char} : a ≤ b ↔ a.toNat ≤ b.toNat := Iff.rfl

theorem mem_setRec {l : AMap} {n : Nat} {v : String} {p : Nat × String}
    (h : p ∈ setRec l n v) : p = (n, v) ∨ p ∈ l := by
  induction l with
  | nil => simpa [setRec] using h
  | cons a rest ih =>
      obtain ⟨k, w⟩ := a
      by_cases hk : k = n
      · simp only [setRec, if_pos hk] at h
        rcases List.mem_cons.mp h with h1 | h1
        · left; rw [h1, hk]
        · right; exact List.mem_cons_of_mem _ h1
      · simp only [setRec, if_neg hk] at h
        rcases List.mem_cons.mp h with h1 | h1
        · right; rw [h1]; exact List.mem_cons_self _ _
        · rcases ih h1 with h' | h'
          · left; exact h'
          · right; exact List.mem_cons_of_mem _ h'

theorem getRec_mem {l : AMap} {n : Nat} {v : String} (h : getRec l n = some v) :
    (n, v) ∈ l := by
  induction l with
  | nil => simp [getRec] at h
  | cons a rest ih =>
      obtain ⟨k, w⟩ := a
      by_cases hk : k = n
      · simp only [getRec, if_pos hk] at h
        subst hk
        cases h
        exact List.mem_cons_self _ _
      · simp only [getRec, if_neg hk] at h
        exact List.mem_cons_of_mem _ (ih h)

theorem getRec_setRec_ne {l : AMap} {n m : Nat} {v : String} (h : n ≠ m) :
    getRec (setRec l n v) m = getRec l m := by
  induction l with
  | nil => simp [setRec, getRec, fun hc : n = m => h hc]
  | cons a rest ih =>
      obtain ⟨k, w⟩ := a
      by_cases hk : k = n
      · simp [setRec, if_pos hk, getRec, hk, fun hc : n = m => h hc]
      · simp only [setRec, if_neg hk, getRec]
        by_cases hm : k = m
        · simp [if_pos hm]
        · simp [if_neg hm, ih]

theorem setRec_of_not_mem {l : AMap} {n : Nat} {v : String} (h : n ∉ keysOf l) :
    setRec l n v = l ++ [(n, v)] := by
  induction l with
  | nil => rfl
  | cons a rest ih =>
      obtain ⟨k, w⟩ := a
      simp only [keysOf, List.map_cons, List.mem_cons, not_or] at h
      obtain ⟨h1, h2⟩ := h
      have hk : ¬k = n := fun hc => h1 hc.symm
      simp only [setRec, if_neg hk]
      rw [ih (by simpa [keysOf] using h2)]
      simp

/-! ## Lemmas about normalization (claim C9) -/

theorem jsUpperChar_of_upperAlnum {c : Char} (h : isUpperAlnumChar c = true) :
    jsUpperChar c = c := by
  simp only [isUpperAlnumChar, Bool.or_eq_true, Bool.and_eq_true, decide_eq_true_eq] at h
  have hna : ¬('a' ≤ c && c ≤ 'z') = true := by
    simp only [Bool.and_eq_true, decide_eq_true_eq, not_and]
    intro hb
    rw [char_le_iff_toNat] at hb
    rcases h with ⟨h1, h2⟩ | ⟨h1, h2⟩ <;>
      rw [char_le_iff_toNat] at h1 h2 <;> intro hcz <;> simp_all <;> omega
  simp [jsUpperChar, hna]

theorem not_ws_of_upperAlnum {c : Char} (h : isUpperAlnumChar c = true) :
    jsWhitespaceChar c = false := by
  simp only [isUpperAlnumChar, Bool.or_eq_true, Bool.and_eq_true, decide_eq_true_eq] at h
  simp only [jsWhitespaceChar, Bool.or_eq_false_iff, decide_eq_false_iff_not]
  rcases h with ⟨h1, h2⟩ | ⟨h1, h2⟩ <;> rw [char_le_iff_toNat] at h1 h2 <;>
    refine ⟨⟨⟨⟨⟨?_, ?_⟩, ?_⟩, ?_⟩, ?_⟩, ?_⟩ <;> intro hc <;> subst hc <;> simp_all

theorem map_eq_self_of_fix {l : List Char} {f : Char → Char} (h : ∀ c ∈ l, f c = c) :
    l.map f = l := by
  induction l with
  | nil => rfl
  | cons a t ih =>
      simp only [List.map_cons, h a (List.mem_cons_self _ _),
        ih fun c hc => h c (List.mem_cons_of_mem _ hc)]

theorem dropWhile_eq_self_of_none {l : List Char} {p : Char → Bool}
    (h : ∀ c ∈ l, p c = false) : List.dropWhile p l = l := by
  cases l with
  | nil => rfl
  | cons a t => simp [List.dropWhile, h a (List.mem_cons_self _ _)]

theorem jsTrimList_eq_self {l : List Char} (h : ∀ c ∈ l, jsWhitespaceChar c = false) :
    jsTrimList l = l := by
  unfold jsTrimList
  rw [dropWhile_eq_self_of_none h,
    dropWhile_eq_self_of_none (fun c hc => h c (List.mem_reverse.mp hc)), List.reverse_reverse]

theorem mem_of_mem_jsTrimList {l : List Char} {c : Char} (h : c ∈ jsTrimList l) : c ∈ l := by
  unfold jsTrimList at h
  have h1 := List.mem_reverse.mp h
  have h2 := (List.dropWhile_sublist _).mem h1
  have h3 := List.mem_reverse.mp h2
  exact (List.dropWhile_sublist _).mem h3

theorem mem_normalize_upperAlnum {x : String} {c : Char}
    (h : c ∈ (normalizeForComparison x).toList) : isUpperAlnumChar c = true := by
  unfold normalizeForComparison at h
  have := mem_of_mem_jsTrimList h
  exact (List.mem_filter.mp this).2

/-- Claim C9: `normalizeForComparison` uppercases, strips characters that are
not uppercase letters or digits, and trims; it is idempotent, and
case/punctuation-insensitive as in the example
`normalize("Cruel  Summer!") = normalize("CRUELSUMMER")`. -/
theorem normalizeForComparison_idempotent :
    (∀ x : String, normalizeForComparison (normalizeForComparison x) = normalizeForComparison x)
    ∧ normalizeForComparison "Cruel  Summer!" = normalizeForComparison "CRUELSUMMER" := by
  constructor
  · intro x
    conv_lhs => rw [normalizeForComparison]
    have hmap : (normalizeForComparison x).toList.map jsUpperChar
        = (normalizeForComparison x).toList := by
      exact map_eq_self_of_fix fun c hc => jsUpperChar_of_upperAlnum (mem_normalize_upperAlnum hc)
    rw [hmap, List.filter_eq_self.mpr (fun c hc => mem_normalize_upperAlnum hc),
      jsTrimList_eq_self (fun c hc => not_ws_of_upperAlnum (mem_normalize_upperAlnum hc))]
    rfl
  · decide

/-- Claim C7: without an answer key the correction engine is a no-op and
`extractTableAnswers` returns exactly the raw extracted map. -/
theorem applyOCRCorrections_no_key_noop :
    (∀ answers : AMap, applyOCRCorrections answers none = answers)
    ∧ (∀ (blocks : List Block) (maxQ : Nat),
        extractTableAnswers blocks maxQ none = rawTableAnswers blocks maxQ) :=
  ⟨fun _ => rfl, fun _ _ => rfl⟩

/-! ## Lemmas about similarity scores (claim C4) -/

theorem Frac.ltb_iff {a b : Frac} (ha : 0 < a.den) (hb : 0 < b.den) :
    Frac.ltb a b = true ↔ a.toRat < b.toRat := by
  simp only [Frac.ltb, Frac.toRat, decide_eq_true_eq]
  rw [div_lt_div_iff (by exact_mod_cast ha) (by exact_mod_cast hb)]
  constructor <;> intro h <;> exact_mod_cast h

theorem fracOne_toRat : fracOne.toRat = 1 := by
  simp [Frac.toRat, fracOne]

theorem fracZero_toRat : fracZero.toRat = 0 := by
  simp [Frac.toRat, fracZero]

theorem simVal_den (d m : Nat) : (simVal d m).den = (m : Int) := rfl

theorem simVal_toRat_le_one {d m : Nat} (hm : 0 < m) : (simVal d m).toRat ≤ 1 := by
  simp only [simVal, Frac.toRat]
  rw [div_le_one (by exact_mod_cast hm)]
  push_cast
  have : (0 : ℚ) ≤ (d : ℚ) := by positivity
  linarith

theorem string_eq_empty_of_length {s : String} (h : s.length = 0) : s = "" := by
  cases s with
  | mk data =>
      cases data with
      | nil => rfl
      | cons a l => simp [String.length] at h

theorem simLoop_bound (norm1 : String) (alts : List String) :
    ∀ best : Frac, 0 < best.den → 0 ≤ best.toRat → best.toRat ≤ 1 →
    0 < (simLoop norm1 alts best).den ∧ 0 ≤ (simLoop norm1 alts best).toRat
    ∧ (simLoop norm1 alts best).toRat ≤ 1 := by
  induction alts with
  | nil => intro best h1 h2 h3; exact ⟨h1, h2, h3⟩
  | cons a t ih =>
      intro best h1 h2 h3
      simp only [simLoop]
      by_cases heq : norm1 = a
      · rw [if_pos heq]
        refine ⟨by norm_num [fracOne], ?_, ?_⟩ <;> rw [fracOne_toRat] <;> norm_num
      · rw [if_neg heq]
        by_cases hlen : norm1.length = 0 ∨ a.length = 0
        · rw [if_pos hlen]; exact ih best h1 h2 h3
        · rw [if_neg hlen]
          push_neg at hlen
          have hm : 0 < Nat.max norm1.length a.length :=
            lt_of_lt_of_le (Nat.pos_of_ne_zero hlen.2) (Nat.le_max_right _ _)
          have hsd : 0 < (simVal (levenshteinDistance norm1 a) (Nat.max norm1.length a.length)).den := by
            rw [simVal_den]; exact_mod_cast hm
          by_cases hlt : Frac.ltb best (simVal (levenshteinDistance norm1 a)
              (Nat.max norm1.length a.length)) = true
          · rw [if_pos hlt]
            have hgt := (Frac.ltb_iff h1 hsd).mp hlt
            exact ih _ hsd (le_of_lt (lt_of_le_of_lt h2 hgt)) (simVal_toRat_le_one hm)
          · rw [if_neg (by simpa using hlt)]
            exact ih best h1 h2 h3

theorem simLoop_eq_one (norm1 : String) (alts : List String) :
    ∀ best : Frac, norm1 ∈ alts → simLoop norm1 alts best = fracOne := by
  induction alts with
  | nil => intro best h; simp at h
  | cons a t ih =>
      intro best h
      simp only [simLoop]
      by_cases heq : norm1 = a
      · rw [if_pos heq]
      · rw [if_neg heq]
        have hmem : norm1 ∈ t := by
          rcases List.mem_cons.mp h with h1 | h1
          · exact absurd h1 heq
          · exact h1
        by_cases hlen : norm1.length = 0 ∨ a.length = 0
        · rw [if_pos hlen]; exact ih best hmem
        · rw [if_neg hlen]; exact ih _ hmem

theorem simLoop_of_empty (norm1 : String) (alts : List String) (hn : norm1 = "") :
    ∀ best : Frac, (∀ alt ∈ alts, alt ≠ "") → simLoop norm1 alts best = best := by
  induction alts with
  | nil => intro best _; rfl
  | cons a t ih =>
      intro best h
      simp only [simLoop]
      have hne : norm1 ≠ a := fun hc => h a (List.mem_cons_self _ _) (hc ▸ hn)
      rw [if_neg hne, if_pos (Or.inl (by rw [hn]; rfl))]
      exact ih best fun alt halt => h alt (List.mem_cons_of_mem _ halt)

theorem splitSlash_of_no_slash {l : List Char} (h : '/' ∉ l) : splitSlash l = [l] := by
  induction l with
  | nil => rfl
  | cons c rest ih =>
      simp only [List.mem_cons, not_or] at h
      rw [splitSlash, ih h.2]
      have hc : ¬c = '/' := fun hc => h.1 hc.symm
      simp [hc]

theorem ws_char_cases {a : Char} (h : jsWhitespaceChar a = true) :
    a = ' ' ∨ a = '\t' ∨ a = '\n' ∨ a = '\r' ∨ a = '\x0b' ∨ a = '\x0c' := by
  have := h
  simp only [jsWhitespaceChar, Bool.or_eq_true, decide_eq_true_eq] at this
  tauto

theorem filter_map_dropWhile_ws (l : List Char) :
    ((l.dropWhile jsWhitespaceChar).map jsUpperChar).filter isUpperAlnumChar
    = (l.map jsUpperChar).filter isUpperAlnumChar := by
  induction l with
  | nil => rfl
  | cons a t ih =>
      by_cases hw : jsWhitespaceChar a = true
      · rw [List.dropWhile_cons_of_pos hw, ih]
        have hfix : jsUpperChar a = a := by
          rcases ws_char_cases hw with h | h | h | h | h | h <;> subst h <;> decide
        have hal : isUpperAlnumChar a = false := by
          rcases ws_char_cases hw with h | h | h | h | h | h <;> subst h <;> decide
        simp [hfix, hal]
      · rw [List.dropWhile_cons_of_neg hw]

theorem filter_map_jsTrimList (l : List Char) :
    ((jsTrimList l).map jsUpperChar).filter isUpperAlnumChar
    = (l.map jsUpperChar).filter isUpperAlnumChar := by
  unfold jsTrimList
  rw [List.map_reverse, List.filter_reverse, filter_map_dropWhile_ws,
    ← List.filter_reverse, ← List.map_reverse, List.reverse_reverse,
    filter_map_dropWhile_ws]

theorem normalize_jsTrimStr (s : String) :
    normalizeForComparison (jsTrimStr s) = normalizeForComparison s := by
  unfold normalizeForComparison jsTrimStr
  have : (String.mk (jsTrimList s.toList)).toList = jsTrimList s.toList := rfl
  rw [this, filter_map_jsTrimList]

theorem simAlternatives_of_no_slash {a : String} (h : '/' ∉ a.toList) :
    simAlternatives a = [normalizeForComparison a] := by
  unfold simAlternatives
  rw [splitSlash_of_no_slash h]
  have : String.mk a.toList = a := rfl
  simp [this, normalize_jsTrimStr]

/-- Claim C4 (amended): `calculateSimilarity` always returns a score in the
closed interval `[0, 1]`; it returns `1.0` whenever some `/`-alternative of
the expected string normalizes identically to the normalized candidate (this
check precedes the emptiness check); when the normalized candidate is empty
and no alternative normalizes to the empty string it returns `0`;
`similarity(x, x) = 1.0` for every `x` without a `/`; and
`similarity("", x) = 0` whenever no alternative of `x` normalizes to the
empty string. -/
theorem calculateSimilarity_props :
    (∀ a b, 0 ≤ (calculateSimilarity a b).toRat ∧ (calculateSimilarity a b).toRat ≤ 1)
    ∧ (∀ a b, normalizeForComparison a ∈ simAlternatives b →
        calculateSimilarity a b = fracOne)
    ∧ (∀ a b, normalizeForComparison a = "" → (∀ alt ∈ simAlternatives b, alt ≠ "") →
        calculateSimilarity a b = fracZero)
    ∧ (∀ a : String, '/' ∉ a.toList → calculateSimilarity a a = fracOne)
    ∧ (∀ b, (∀ alt ∈ simAlternatives b, alt ≠ "") → calculateSimilarity "" b = fracZero) := by
  have hone : ∀ a b, normalizeForComparison a ∈ simAlternatives b →
      calculateSimilarity a b = fracOne :=
    fun a b h => simLoop_eq_one _ _ _ h
  have hzero : ∀ a b, normalizeForComparison a = "" →
      (∀ alt ∈ simAlternatives b, alt ≠ "") → calculateSimilarity a b = fracZero :=
    fun a b hn h => simLoop_of_empty _ _ hn _ h
  refine ⟨fun a b => ?_, hone, hzero, fun a h => ?_, fun b h => hzero "" b (by decide) h⟩
  · have := simLoop_bound (normalizeForComparison a) (simAlternatives b) fracZero
      (by norm_num [fracZero]) (by rw [fracZero_toRat]) (by rw [fracZero_toRat]; norm_num)
    exact ⟨this.2.1, this.2.2⟩
  · exact hone a a (by rw [simAlternatives_of_no_slash h]; exact List.mem_singleton.mpr rfl)

/-- Witness for claim C4's amended theorem at concrete inputs. -/
theorem calculateSimilarity_props_witness :
    calculateSimilarity "GLORY" "GLORY/HAPPY DAYS" = fracOne
    ∧ calculateSimilarity "" "ABC" = fracZero
    ∧ calculateSimilarity "HELLO" "HELLO" = fracOne :=
  ⟨calculateSimilarity_props.2.1 "GLORY" "GLORY/HAPPY DAYS" (by decide),
   calculateSimilarity_props.2.2.2.2 "ABC" (by decide),
   calculateSimilarity_props.2.2.2.1 "HELLO" (by decide)⟩

/-- Claim C4 counterexample: the claim demands `similarity("", x) = 0` and a
zero result whenever a normalized side is empty, but for `x = "!!!"` (both
sides normalize to the empty string) the equality short-circuit fires first
and the function returns `1.0`. -/
theorem calculateSimilarity_empty_counterexample :
    normalizeForComparison "" = "" ∧ normalizeForComparison "!!!" = ""
    ∧ calculateSimilarity "" "!!!" = fracOne ∧ fracOne.toRat ≠ 0 := by
  refine ⟨by decide, by decide, by decide, ?_⟩
  rw [fracOne_toRat]
  norm_num

/-! ## Claim C3: question-number resolution priority -/

/-- Claim C3 counterexample: in the second column-group a printed `26` whose
slot is already assigned is used anyway by the code (so the answer is then
dropped), while the claim's priority order falls through to the counter. -/
theorem resolveQNum2_counterexample :
    resolveQNum2 "26" "Y" 27 = some 26
    ∧ claimResolve [(26, "X")] "26" "" "Y" 27 26 50 = some 27
    ∧ resolveQNum2 "26" "Y" 27 ≠ claimResolve [(26, "X")] "26" "" "Y" 27 26 50 := by
  refine ⟨by decide, by decide, by decide⟩

/-- Claim C3 (amended): the first column-group resolves the question number
by (a) the printed number in `1..25` when its slot is free, (b) the counter
when the printed number is in range but its slot is taken (the question-text
cell is not consulted in this case), (c) leading digits of the question-text
cell in range with a free slot when the printed cell does not parse in
range, and (d) otherwise the counter, requiring non-empty answer text and
counter at most 25; the second column-group uses the printed number in
`26..50` regardless of assignment and otherwise the counter (non-empty
answer text, counter at most 50), never the question-text cell. -/
theorem resolve_priority_amended :
    ∀ (answers : AMap) (numText qText ansText : String) (exp1 exp2 : Nat),
    resolveQNum1 answers numText qText ansText exp1
      = amendedResolve1 answers numText qText ansText exp1
    ∧ resolveQNum2 numText ansText exp2 = amendedResolve2 numText ansText exp2 := by
  intro answers numText qText ansText exp1 exp2
  constructor
  · unfold resolveQNum1 amendedResolve1
    cases hp : jsParseInt (jsTrimStr numText) <;>
      cases hl : leadingNumber (jsTrimStr qText) <;>
        simp only [hp, hl] <;> split_ifs <;> rfl
  · unfold resolveQNum2 amendedResolve2
    cases hp : jsParseInt (jsTrimStr numText) <;> simp only [hp] <;> split_ifs <;> rfl

/-! ## Claim C1: the merge scenario

A concrete instance of the spec's merge scenario: the key defines
`Q36 = "BACK"`, `Q37 = "STABBERS"`, and distinct answers for `Q38..Q50`; the
extracted map holds both halves in `Q36` and every later slot holds the
following question's answer, with some content left in `Q50`. -/

set_option maxRecDepth 40000 in
/-- Claim C1: on the merge scenario the engine only rewrites `Q36` to
`"BACK"`; the detected second half is never written to `Q37`, no later
answer shifts, and the `Q50` entry survives — the claimed cascading shift
with removal of `Q50` does not happen. -/
theorem applyOCRCorrections_merge_scenario :
    applyOCRCorrections mergeExtracted (some mergeKey) =
      [(36, "BACK"), (37, "EAGLE"), (38, "FALCON"), (39, "GROUSE"), (40, "HERON"),
       (41, "KITE"), (42, "LARK"), (43, "MAGPIE"), (44, "NIGHTJAR"), (45, "OSPREY"),
       (46, "PUFFIN"), (47, "ROBIN"), (48, "SISKIN"), (49, "TERN"), (50, "XYLOPHONE")]
    ∧ getRec (applyOCRCorrections mergeExtracted (some mergeKey)) 37 ≠ some "STABBERS"
    ∧ getRec (applyOCRCorrections mergeExtracted (some mergeKey)) 50 = some "XYLOPHONE" := by
  refine ⟨by decide, by decide, by decide⟩

/-! ## Claim C2: idempotence of the correction engine -/

set_option maxRecDepth 40000 in
/-- Claim C2 counterexample: a fully corrected map (its only answer equals
its own expected text) is changed by the engine when that answer is the
concatenation of two other expected answers — the merge pass rewrites
`Q2 = "BACK STABBERS"` to `"BACK"`. -/
theorem applyOCRCorrections_not_idempotent :
    (∀ p ∈ ([(2, "BACK STABBERS")] : AMap),
        getRec [(1, "BACK"), (2, "BACK STABBERS"), (3, "STABBERS")] p.1 = some p.2)
    ∧ applyOCRCorrections [(2, "BACK STABBERS")]
        (some [(1, "BACK"), (2, "BACK STABBERS"), (3, "STABBERS")]) = [(2, "BACK")]
    ∧ ([(2, "BACK")] : AMap) ≠ [(2, "BACK STABBERS")] := by
  refine ⟨by decide, by decide, by decide⟩

theorem mergeScan_none {key : AMap} {nrm : String}
    (H : ∀ i, i < 51 → ∀ e, getRec key i = some e → e = ""
      ∨ ¬(jsStartsWith nrm (normalizeForComparison e) = true
          ∧ (normalizeForComparison e).length < nrm.length)) :
    ∀ (fuel i : Nat) (used : List Nat), mergeScan key used nrm fuel i = none := by
  intro fuel
  induction fuel with
  | zero => intro i used; rfl
  | succ f ih =>
      intro i used
      rw [mergeScan]
      by_cases hi : i ≤ 50
      · rw [if_pos hi]
        cases hk : getRec key i with
        | none => exact ih _ _
        | some e =>
            dsimp only
            by_cases hu : e = "" ∨ i ∈ used
            · rw [if_pos hu]; exact ih _ _
            · rw [if_neg hu]
              rcases H i (by omega) e hk with he | he
              · exact absurd (Or.inl he) hu
              · rw [if_neg he]; exact ih _ _
      · rw [if_neg hi]

theorem foldl_pass1_id {key : AMap} :
    ∀ (m acc : AMap) (u : List Nat),
    (∀ p ∈ m, ∀ (fuel i : Nat) (used : List Nat),
      mergeScan key used (normalizeForComparison p.2) fuel i = none) →
    (∀ p ∈ m, p.1 ∉ keysOf acc) → (keysOf m).Nodup →
    List.foldl (pass1Step key) (acc, u) m = (acc ++ m, u) := by
  intro m
  induction m with
  | nil => intro acc u _ _ _; simp
  | cons p t ih =>
      intro acc u hms hdisj hnd
      have hstep : pass1Step key (acc, u) p = (acc ++ [p], u) := by
        unfold pass1Step
        rw [hms p (List.mem_cons_self _ _) 50 1 u]
        rw [setRec_of_not_mem (hdisj p (List.mem_cons_self _ _))]
      rw [List.foldl_cons, hstep]
      have hnd2 : (p.1 :: keysOf t).Nodup := by
        rw [keysOf, List.map_cons] at hnd; exact hnd
      have hnd' : (keysOf t).Nodup := (List.nodup_cons.mp hnd2).2
      have hp1 : p.1 ∉ keysOf t := (List.nodup_cons.mp hnd2).1
      have hdisj' : ∀ q ∈ t, q.1 ∉ keysOf (acc ++ [p]) := by
        intro q hq
        simp only [keysOf, List.map_append, List.mem_append] at hdisj ⊢
        push_neg
        refine ⟨by simpa [keysOf] using hdisj q (List.mem_cons_of_mem _ hq), ?_⟩
        simp only [List.map_cons, List.map_nil, List.mem_singleton]
        intro hc
        exact hp1 (by simpa [keysOf, hc] using List.mem_map_of_mem Prod.fst hq)
      rw [ih (acc ++ [p]) u (fun q hq => hms q (List.mem_cons_of_mem _ hq)) hdisj' hnd']
      simp

theorem pass2Step_id {key : AMap} {e : Nat × String} (h : getRec key e.1 = some e.2) :
    ∀ acc, pass2Step key acc e = acc := by
  intro acc
  simp [pass2Step, h, ite_self]

theorem foldl_pass2_id {key : AMap} :
    ∀ (l : List (Nat × String)) (acc : AMap),
    (∀ p ∈ l, getRec key p.1 = some p.2) → List.foldl (pass2Step key) acc l = acc := by
  intro l
  induction l with
  | nil => intro acc _; rfl
  | cons p t ih =>
      intro acc h
      rw [List.foldl_cons, pass2Step_id (h p (List.mem_cons_self _ _))]
      exact ih acc fun q hq => h q (List.mem_cons_of_mem _ hq)

theorem pass3_id {key corrected : AMap}
    (Hv : ∀ q v, getRec corrected q = some v → getRec key q = some v) :
    ∀ (fuel q : Nat) (fc : AMap), pass3 key corrected fuel q fc = fc := by
  intro fuel
  induction fuel with
  | zero => intro q fc; rfl
  | succ f ih =>
      intro q fc
      rw [pass3]
      by_cases hq : q ≤ 50
      · rw [if_pos hq]
        cases hc : getRec corrected q with
        | none => cases getRec key q <;> exact ih _ _
        | some extracted =>
            rw [Hv q extracted hc]
            dsimp only
            by_cases he : extracted = ""
            · rw [if_pos (Or.inl he)]; exact ih _ _
            · rw [if_neg (by simpa using he)]
              rw [if_neg (by
                intro hcon
                exact absurd hcon.2.1 (lt_irrefl _))]
              exact ih _ _
      · rw [if_neg hq]

/-- Claim C2 (amended): the correction engine is idempotent on a fully
corrected map provided no answer's normalized text strictly extends the
normalization of some expected answer of the key (otherwise the merge pass
can fire, as the counterexample shows): if the map's keys are distinct,
every answer equals its own expected text, and `noMergePrefix` holds, the
engine returns the map unchanged. -/
theorem applyOCRCorrections_idempotent (m key : AMap)
    (hnd : (keysOf m).Nodup)
    (hvals : ∀ p ∈ m, getRec key p.1 = some p.2)
    (hpre : noMergePrefix m key = true) :
    applyOCRCorrections m (some key) = m := by
  have hms : ∀ p ∈ m, ∀ (fuel i : Nat) (used : List Nat),
      mergeScan key used (normalizeForComparison p.2) fuel i = none := by
    intro p hp
    apply mergeScan_none
    intro i hi e hk
    have hall := (List.all_eq_true.mp hpre) p hp
    have hib := (List.all_eq_true.mp hall) i (List.mem_range.mpr hi)
    rw [hk] at hib
    simp only [Bool.not_eq_eq_eq_not, Bool.not_true, Bool.and_eq_false_iff,
      bne_eq_false_iff_eq, decide_eq_false_iff_not] at hib
    rcases hib with (hib | hib) | hib
    · exact Or.inl hib
    · exact Or.inr fun hcon => by simp [hcon.1] at hib
    · exact Or.inr fun hcon => hib hcon.2
  have h1 : pass1 key m = (m, []) := by
    have := foldl_pass1_id m [] [] hms (by simp [keysOf]) hnd
    simpa [pass1] using this
  have h2 : pass2 key m = m :=
    foldl_pass2_id m m hvals
  show pass3 key (pass2 key (pass1 key m).1) 50 1 (pass2 key (pass1 key m).1) = m
  rw [h1]
  show pass3 key (pass2 key m) 50 1 (pass2 key m) = m
  rw [h2]
  exact pass3_id (fun q v hq => hvals (q, v) (getRec_mem hq)) 50 1 m

set_option maxRecDepth 40000 in
/-- Witness for claim C2's amended theorem at a concrete fully corrected
map. -/
theorem applyOCRCorrections_idempotent_witness :
    applyOCRCorrections [(1, "CRUEL SUMMER"), (2, "MONEY")]
      (some [(1, "CRUEL SUMMER"), (2, "MONEY")]) = [(1, "CRUEL SUMMER"), (2, "MONEY")] :=
  applyOCRCorrections_idempotent _ _ (by decide) (by decide) (by decide)

/-! ## Entry characterization of the correction passes (claims C5, C8, C10) -/

theorem mergeScan_some {key : AMap} {used : List Nat} {nrm : String} :
    ∀ {fuel i i' : Nat} {c : String}, mergeScan key used nrm fuel i = some (i', c) →
    getRec key i' = some c ∧ c ≠ "" := by
  intro fuel
  induction fuel with
  | zero => intro i i' c h; simp [mergeScan] at h
  | succ f ih =>
      intro i i' c h
      rw [mergeScan] at h
      by_cases hi : i ≤ 50
      · rw [if_pos hi] at h
        cases hk : getRec key i with
        | none => rw [hk] at h; exact ih h
        | some e =>
            rw [hk] at h
            dsimp only at h
            by_cases hu : e = "" ∨ i ∈ used
            · rw [if_pos hu] at h; exact ih h
            · rw [if_neg hu] at h
              push_neg at hu
              by_cases hpre : jsStartsWith nrm (normalizeForComparison e) = true
                  ∧ (normalizeForComparison e).length < nrm.length
              · rw [if_pos hpre] at h
                by_cases hrem : mergeRemainder key used
                    (jsSubstringFrom nrm (normalizeForComparison e).length) i 50 1 = true
                · rw [if_pos hrem] at h
                  cases h
                  exact ⟨hk, hu.1⟩
                · rw [if_neg hrem] at h; exact ih h
              · rw [if_neg hpre] at h; exact ih h
      · rw [if_neg hi] at h; exact absurd h (by simp)

theorem pass1Step_mem {key : AMap} {st : AMap × List Nat} {e p : Nat × String}
    (h : p ∈ (pass1Step key st e).1) :
    p ∈ st.1 ∨ (p.1 = e.1 ∧ (p.2 = e.2 ∨ keyValue key p.2)) := by
  unfold pass1Step at h
  cases hms : mergeScan key st.2 (normalizeForComparison e.2) 50 1 with
  | none =>
      rw [hms] at h
      rcases mem_setRec h with h1 | h1
      · right; exact ⟨congrArg Prod.fst h1, Or.inl (congrArg Prod.snd h1)⟩
      · left; exact h1
  | some ic =>
      rw [hms] at h
      obtain ⟨i, c⟩ := ic
      rcases mem_setRec h with h1 | h1
      · right
        have hfst : p.1 = e.1 := by rw [h1]
        have hsnd : p.2 = c := by rw [h1]
        refine ⟨hfst, Or.inr ?_⟩
        have hc := mergeScan_some hms
        exact ⟨i, by rw [hsnd]; exact hc.1, by rw [hsnd]; exact hc.2⟩
      · left; exact h1

theorem foldl_pass1_mem {key : AMap} :
    ∀ (m : List (Nat × String)) (acc : AMap) (u : List Nat) (p : Nat × String),
    p ∈ (List.foldl (pass1Step key) (acc, u) m).1 →
    p ∈ acc ∨ ∃ e ∈ m, p.1 = e.1 ∧ (p.2 = e.2 ∨ keyValue key p.2) := by
  intro m
  induction m with
  | nil => intro acc u p h; exact Or.inl h
  | cons e t ih =>
      intro acc u p h
      rw [List.foldl_cons] at h
      have hst : List.foldl (pass1Step key) (pass1Step key (acc, u) e) t
          = List.foldl (pass1Step key) ((pass1Step key (acc, u) e).1, (pass1Step key (acc, u) e).2) t := by
        rfl
      rw [hst] at h
      rcases ih _ _ p h with h1 | ⟨e', he', h2⟩
      · rcases pass1Step_mem h1 with h2 | h2
        · exact Or.inl h2
        · exact Or.inr ⟨e, List.mem_cons_self _ _, h2⟩
      · exact Or.inr ⟨e', List.mem_cons_of_mem _ he', h2⟩

theorem pass1_mem {key m : AMap} {p : Nat × String} (h : p ∈ (pass1 key m).1) :
    p ∈ m ∨ (p.1 ∈ keysOf m ∧ keyValue key p.2) := by
  rcases foldl_pass1_mem m [] [] p h with h1 | ⟨e, he, h2, h3⟩
  · simp at h1
  · rcases h3 with h3 | h3
    · left
      have : p = e := Prod.ext h2 h3
      rw [this]; exact he
    · right
      exact ⟨h2 ▸ List.mem_map_of_mem Prod.fst he, h3⟩

theorem pass2Step_mem {key : AMap} {acc : AMap} {e p : Nat × String}
    (h : p ∈ pass2Step key acc e) :
    p ∈ acc ∨ (p.1 = e.1 ∧ keyValue key p.2) := by
  unfold pass2Step at h
  cases hk : getRec key e.1 with
  | none => rw [hk] at h; exact Or.inl h
  | some expected =>
      rw [hk] at h
      dsimp only at h
      by_cases he : expected = ""
      · rw [if_pos he] at h; exact Or.inl h
      · rw [if_neg he] at h
        by_cases hs : Frac.leb ⟨17, 20⟩ (calculateSimilarity e.2 expected) = true
        · rw [if_pos hs] at h
          by_cases hne : normalizeForComparison e.2 ≠ normalizeForComparison expected
          · rw [if_pos hne] at h
            rcases mem_setRec h with h1 | h1
            · right
              have hfst : p.1 = e.1 := by rw [h1]
              have hsnd : p.2 = expected := by rw [h1]
              exact ⟨hfst, e.1, by rw [hsnd]; exact hk, by rw [hsnd]; exact he⟩
            · exact Or.inl h1
          · rw [if_neg hne] at h; exact Or.inl h
        · rw [if_neg hs] at h; exact Or.inl h

theorem foldl_pass2_mem {key : AMap} :
    ∀ (l : List (Nat × String)) (acc : AMap) (p : Nat × String),
    p ∈ List.foldl (pass2Step key) acc l →
    p ∈ acc ∨ (∃ e ∈ l, p.1 = e.1) ∧ keyValue key p.2 := by
  intro l
  induction l with
  | nil => intro acc p h; exact Or.inl h
  | cons e t ih =>
      intro acc p h
      rw [List.foldl_cons] at h
      rcases ih _ p h with h1 | ⟨⟨e', he', h2⟩, h3⟩
      · rcases pass2Step_mem h1 with h2 | h2
        · exact Or.inl h2
        · exact Or.inr ⟨⟨e, List.mem_cons_self _ _, h2.1⟩, h2.2⟩
      · exact Or.inr ⟨⟨e', List.mem_cons_of_mem _ he', h2⟩, h3⟩

theorem shiftLoop_mem {key corrected : AMap} :
    ∀ (fuel s : Nat) (fc : AMap) (p : Nat × String), mapTruthy corrected s = true →
    p ∈ shiftLoop key corrected fuel s fc →
    p ∈ fc ∨ (mapTruthy corrected p.1 = true ∧ keyValue key p.2) := by
  intro fuel
  induction fuel with
  | zero => intro s fc p _ h; exact Or.inl h
  | succ f ih =>
      intro s fc p hs h
      rw [shiftLoop] at h
      by_cases hb : s < 50
      · rw [if_pos hb] at h
        cases hk : getRec key s with
        | none => rw [hk] at h; cases getRec corrected (s + 1) <;> exact Or.inl h
        | some shiftExpected =>
            rw [hk] at h
            cases hc : getRec corrected (s + 1) with
            | none => rw [hc] at h; exact Or.inl h
            | some shiftNextExtracted =>
                rw [hc] at h
                dsimp only at h
                by_cases he : shiftExpected = "" ∨ shiftNextExtracted = ""
                · rw [if_pos he] at h; exact Or.inl h
                · rw [if_neg he] at h
                  push_neg at he
                  have hs1 : mapTruthy corrected (s + 1) = true := by
                    simp [mapTruthy, hc, he.2]
                  by_cases hgo : Frac.ltb ⟨7, 10⟩ (calculateSimilarity shiftNextExtracted shiftExpected) = true
                      ∨ ((splitSlash shiftExpected.toList).map fun alt =>
                          normalizeForComparison (jsTrimStr (String.mk alt))).any
                          (fun alt => jsStartsWith (normalizeForComparison shiftNextExtracted) alt) = true
                  · rw [if_pos hgo] at h
                    -- the recursive call returns fc2, built from fc with at most two writes
                    have hrec := ih (s + 1) _ p hs1 h
                    rcases hrec with hrec | hrec
                    · -- p is in fc2: peel the optional remainder write, then the main write
                      have hmain : ∀ q ∈ setRec fc s shiftExpected,
                          q ∈ fc ∨ (mapTruthy corrected q.1 = true ∧ keyValue key q.2) := by
                        intro q hq
                        rcases mem_setRec hq with h1 | h1
                        · right
                          constructor
                          · rw [h1]; exact hs
                          · exact ⟨s, by rw [h1]; exact hk, by rw [h1]; exact he.1⟩
                        · exact Or.inl h1
                      by_cases hsw : ((splitSlash shiftExpected.toList).map fun alt =>
                          normalizeForComparison (jsTrimStr (String.mk alt))).any
                          (fun alt => jsStartsWith (normalizeForComparison shiftNextExtracted) alt) = true
                      · rw [if_pos hsw] at hrec
                        cases hfind : ((splitSlash shiftExpected.toList).map fun alt =>
                            normalizeForComparison (jsTrimStr (String.mk alt))).find?
                            (fun alt => jsStartsWith (normalizeForComparison shiftNextExtracted) alt) with
                        | none => rw [hfind] at hrec; exact hmain p hrec
                        | some matchedAlt =>
                            rw [hfind] at hrec
                            dsimp only at hrec
                            by_cases hma : matchedAlt ≠ ""
                                ∧ matchedAlt.length < (normalizeForComparison shiftNextExtracted).length
                            · rw [if_pos hma] at hrec
                              cases hnn : getRec key (s + 1) with
                              | none => rw [hnn] at hrec; exact hmain p hrec
                              | some nextNextExpected =>
                                  rw [hnn] at hrec
                                  dsimp only at hrec
                                  by_cases hrn : jsTrimStr (jsSubstringFrom shiftNextExtracted matchedAlt.length) ≠ ""
                                      ∧ nextNextExpected ≠ ""
                                  · rw [if_pos hrn] at hrec
                                    by_cases hsim : Frac.ltb ⟨7, 10⟩ (calculateSimilarity
                                        (jsTrimStr (jsSubstringFrom shiftNextExtracted matchedAlt.length))
                                        nextNextExpected) = true
                                    · rw [if_pos hsim] at hrec
                                      rcases mem_setRec hrec with h1 | h1
                                      · right
                                        constructor
                                        · rw [h1]; exact hs1
                                        · exact ⟨s + 1, by rw [h1]; exact hnn, by rw [h1]; exact hrn.2⟩
                                      · exact hmain p h1
                                    · rw [if_neg hsim] at hrec; exact hmain p hrec
                                  · rw [if_neg hrn] at hrec; exact hmain p hrec
                            · rw [if_neg hma] at hrec; exact hmain p hrec
                      · rw [if_neg hsw] at hrec; exact hmain p hrec
                    · exact Or.inr hrec
                  · rw [if_neg hgo] at h; exact Or.inl h
      · rw [if_neg hb] at h; exact Or.inl h

theorem pass3_mem {key corrected : AMap} :
    ∀ (fuel q : Nat) (fc : AMap) (p : Nat × String), p ∈ pass3 key corrected fuel q fc →
    p ∈ fc ∨ (mapTruthy corrected p.1 = true ∧ keyValue key p.2) := by
  intro fuel
  induction fuel with
  | zero => intro q fc p h; exact Or.inl h
  | succ f ih =>
      intro q fc p h
      rw [pass3] at h
      by_cases hq : q ≤ 50
      · rw [if_pos hq] at h
        cases hc : getRec corrected q with
        | none =>
            rw [hc] at h
            cases getRec key q <;> exact ih _ _ p h
        | some extracted =>
            rw [hc] at h
            cases hk : getRec key q with
            | none => rw [hk] at h; exact ih _ _ p h
            | some expected =>
                rw [hk] at h
                dsimp only at h
                by_cases he : extracted = "" ∨ expected = ""
                · rw [if_pos he] at h; exact ih _ _ p h
                · rw [if_neg he] at h
                  push_neg at he
                  by_cases hpre : jsStartsWith (normalizeForComparison expected)
                      (normalizeForComparison extracted) = true
                      ∧ (normalizeForComparison extracted).length < (normalizeForComparison expected).length
                      ∧ 3 < (normalizeForComparison extracted).length
                  · rw [if_pos hpre] at h
                    cases hn : getRec corrected (q + 1) with
                    | none => rw [hn] at h; exact ih _ _ p h
                    | some nextExtracted =>
                        rw [hn] at h
                        dsimp only at h
                        by_cases hne : nextExtracted = ""
                        · rw [if_pos hne] at h; exact ih _ _ p h
                        · rw [if_neg hne] at h
                          by_cases hsplit : normalizeForComparison nextExtracted
                              = jsSubstringFrom (normalizeForComparison expected)
                                  (normalizeForComparison extracted).length
                              ∨ jsStartsWith (normalizeForComparison nextExtracted)
                                  (jsSubstringFrom (normalizeForComparison expected)
                                    (normalizeForComparison extracted).length) = true
                          · rw [if_pos hsplit] at h
                            rcases ih _ _ p h with h1 | h1
                            · have hs1 : mapTruthy corrected (q + 1) = true := by
                                simp [mapTruthy, hn, hne]
                              rcases shiftLoop_mem 50 (q + 1) _ p hs1 h1 with h2 | h2
                              · rcases mem_setRec h2 with h3 | h3
                                · right
                                  constructor
                                  · rw [h3]; simp [mapTruthy, hc, he.1]
                                  · exact ⟨q, by rw [h3]; exact hk, by rw [h3]; exact he.2⟩
                                · exact Or.inl h3
                              · exact Or.inr h2
                            · exact Or.inr h1
                          · rw [if_neg hsplit] at h; exact ih _ _ p h
                  · rw [if_neg hpre] at h; exact ih _ _ p h
      · rw [if_neg hq] at h; exact Or.inl h

/-- Every entry of the corrected map is either an entry of the input map, or
sits at a key of the input map with a non-empty value taken from the answer
key: the passes never create keys and every write is a truthy key entry. -/
theorem applyOCRCorrections_entries {m key : AMap} {p : Nat × String}
    (h : p ∈ applyOCRCorrections m (some key)) :
    p ∈ m ∨ (p.1 ∈ keysOf m ∧ keyValue key p.2) := by
  have hcm : ∀ q : Nat × String, q ∈ pass2 key (pass1 key m).1 →
      q ∈ m ∨ (q.1 ∈ keysOf m ∧ keyValue key q.2) := by
    intro q hq
    rcases foldl_pass2_mem _ _ q hq with h1 | ⟨⟨e, he, h2⟩, h3⟩
    · exact pass1_mem h1
    · right
      rcases pass1_mem he with h4 | h4
      · exact ⟨h2 ▸ List.mem_map_of_mem Prod.fst h4, h3⟩
      · exact ⟨h2 ▸ h4.1, h3⟩
  have h0 : p ∈ pass3 key (pass2 key (pass1 key m).1) 50 1 (pass2 key (pass1 key m).1) := h
  rcases pass3_mem 50 1 _ p h0 with h1 | h1
  · exact hcm p h1
  · right
    obtain ⟨ht, hkv⟩ := h1
    have : ∃ v, getRec (pass2 key (pass1 key m).1) p.1 = some v := by
      unfold mapTruthy at ht
      cases hg : getRec (pass2 key (pass1 key m).1) p.1 with
      | none => rw [hg] at ht; simp at ht
      | some v => exact ⟨v, rfl⟩
    obtain ⟨v, hv⟩ := this
    have hmem := getRec_mem hv
    rcases hcm _ hmem with h2 | h2
    · refine ⟨?_, hkv⟩
      simpa [keysOf] using List.mem_map_of_mem Prod.fst h2
    · exact ⟨h2.1, hkv⟩

/-! ## Raw table pass invariants (claims C5, C6, C10) -/

theorem storeAnswer_mem {answers : AMap} {qNum : Option Nat} {ansText : String}
    {maxQ exp : Nat} {dbg : Bool} {p : Nat × String}
    (h : p ∈ (storeAnswer answers qNum ansText maxQ exp dbg).1) :
    p ∈ answers ∨ (p.1 ≤ maxQ ∧ p.2 = ansText ∧ ansText ≠ "") := by
  unfold storeAnswer at h
  cases qNum with
  | none =>
      dsimp only at h
      split_ifs at h <;> exact Or.inl h
  | some q =>
      dsimp only at h
      by_cases hg : q ≠ 0 ∧ q ≤ maxQ ∧ ansText ≠ "" ∧ ¬mapTruthy answers q = true
      · rw [if_pos hg] at h
        rcases mem_setRec h with h1 | h1
        · right
          exact ⟨by rw [h1]; exact hg.2.1, by rw [h1], hg.2.2.1⟩
        · exact Or.inl h1
      · rw [if_neg hg] at h
        split_ifs at h <;> exact Or.inl h

theorem storeAnswer_preserve {answers : AMap} {qNum : Option Nat} {ansText : String}
    {maxQ exp n : Nat} {dbg : Bool} {v : String}
    (hv : getRec answers n = some v) (hne : v ≠ "") :
    getRec (storeAnswer answers qNum ansText maxQ exp dbg).1 n = some v := by
  unfold storeAnswer
  cases qNum with
  | none => dsimp only; split_ifs <;> exact hv
  | some q =>
      dsimp only
      by_cases hg : q ≠ 0 ∧ q ≤ maxQ ∧ ansText ≠ "" ∧ ¬mapTruthy answers q = true
      · rw [if_pos hg]
        have hqn : q ≠ n := by
          intro hc
          subst hc
          exact hg.2.2.2 (by simp [mapTruthy, hv, hne])
        simpa using (getRec_setRec_ne hqn).trans hv
      · rw [if_neg hg]
        split_ifs <;> exact hv

theorem processRow_mem {bm : List (String × Block)} {maxQ : Nat} {st : AMap × Nat × Nat}
    {row : List Block} {p : Nat × String}
    (h : p ∈ (processRow bm maxQ st row).1) :
    p ∈ st.1 ∨ (p.1 ≤ maxQ ∧ p.2 ≠ "") := by
  unfold processRow at h
  obtain ⟨answers, exp1, exp2⟩ := st
  rcases hm : stableSort (fun a b => (a.ColumnIndex.getD 0) ≤ (b.ColumnIndex.getD 0)) row with
    _ | ⟨c1, _ | ⟨c2, _ | ⟨c3, _ | ⟨c4, _ | ⟨c5, _ | ⟨c6, _ | _⟩⟩⟩⟩⟩⟩ <;> rw [hm] at h <;>
    try exact Or.inl h
  dsimp only at h
  split_ifs at h with hh
  · exact Or.inl h
  · rcases storeAnswer_mem h with h1 | h1
    · rcases storeAnswer_mem h1 with h2 | h2
      · exact Or.inl h2
      · exact Or.inr ⟨h2.1, h2.2.1 ▸ h2.2.2⟩
    · exact Or.inr ⟨h1.1, h1.2.1 ▸ h1.2.2⟩

theorem processRow_preserve {bm : List (String × Block)} {maxQ : Nat} {st : AMap × Nat × Nat}
    {row : List Block} {n : Nat} {v : String}
    (hv : getRec st.1 n = some v) (hne : v ≠ "") :
    getRec (processRow bm maxQ st row).1 n = some v := by
  unfold processRow
  obtain ⟨answers, exp1, exp2⟩ := st
  rcases hm : stableSort (fun a b => (a.ColumnIndex.getD 0) ≤ (b.ColumnIndex.getD 0)) row with
    _ | ⟨c1, _ | ⟨c2, _ | ⟨c3, _ | ⟨c4, _ | ⟨c5, _ | ⟨c6, _ | _⟩⟩⟩⟩⟩⟩ <;> rw [hm] <;>
    try exact hv
  dsimp only
  split_ifs with hh
  · exact hv
  · exact storeAnswer_preserve (storeAnswer_preserve hv hne) hne

theorem foldl_rows_mem {bm : List (String × Block)} {maxQ : Nat} :
    ∀ (rows : List (Nat × List Block)) (st : AMap × Nat × Nat) (p : Nat × String),
    p ∈ (rows.foldl (fun st row => processRow bm maxQ st row.2) st).1 →
    p ∈ st.1 ∨ (p.1 ≤ maxQ ∧ p.2 ≠ "") := by
  intro rows
  induction rows with
  | nil => intro st p h; exact Or.inl h
  | cons r t ih =>
      intro st p h
      rw [List.foldl_cons] at h
      rcases ih _ p h with h1 | h1
      · exact processRow_mem h1
      · exact Or.inr h1

theorem foldl_rows_preserve {bm : List (String × Block)} {maxQ : Nat} :
    ∀ (rows : List (Nat × List Block)) (st : AMap × Nat × Nat) (n : Nat) (v : String),
    getRec st.1 n = some v → v ≠ "" →
    getRec ((rows.foldl (fun st row => processRow bm maxQ st row.2) st).1) n = some v := by
  intro rows
  induction rows with
  | nil => intro st n v hv _; exact hv
  | cons r t ih =>
      intro st n v hv hne
      rw [List.foldl_cons]
      exact ih _ n v (processRow_preserve hv hne) hne

theorem processTable_mem {bm : List (String × Block)} {maxQ : Nat} {answers : AMap}
    {table : Block} {p : Nat × String} (h : p ∈ processTable bm maxQ answers table) :
    p ∈ answers ∨ (p.1 ≤ maxQ ∧ p.2 ≠ "") := by
  unfold processTable at h
  exact foldl_rows_mem _ _ p h

theorem processTable_preserve {bm : List (String × Block)} {maxQ : Nat} {answers : AMap}
    {table : Block} {n : Nat} {v : String}
    (hv : getRec answers n = some v) (hne : v ≠ "") :
    getRec (processTable bm maxQ answers table) n = some v := by
  unfold processTable
  exact foldl_rows_preserve _ _ n v hv hne

theorem rawTableAnswers_mem {blocks : List Block} {maxQ : Nat} {p : Nat × String}
    (h : p ∈ rawTableAnswers blocks maxQ) : p.1 ≤ maxQ ∧ p.2 ≠ "" := by
  unfold rawTableAnswers at h
  suffices hgen : ∀ (ts : List Block) (acc : AMap),
      p ∈ ts.foldl (processTable (buildBlockMap blocks) maxQ) acc →
      p ∈ acc ∨ (p.1 ≤ maxQ ∧ p.2 ≠ "") by
    rcases hgen _ [] h with h1 | h1
    · simp at h1
    · exact h1
  intro ts
  induction ts with
  | nil => intro acc h1; exact Or.inl h1
  | cons b t ih =>
      intro acc h1
      rw [List.foldl_cons] at h1
      rcases ih _ h1 with h2 | h2
      · exact processTable_mem h2
      · exact Or.inr h2

/-! ## Concrete table fixture (witnesses) -/

/-- Claim C5: every key of the map returned by `extractTableAnswers` is at
most the caller-supplied cap, for every block list and optional answer key,
including after the correction passes (which never create keys). -/
theorem extractTableAnswers_keys_le_cap (blocks : List Block) (maxQ : Nat)
    (answerKey : Option AMap) (n : Nat) (v : String)
    (h : (n, v) ∈ extractTableAnswers blocks maxQ answerKey) : n ≤ maxQ := by
  unfold extractTableAnswers at h
  cases answerKey with
  | none => exact (rawTableAnswers_mem h).1
  | some key =>
      rcases applyOCRCorrections_entries h with h1 | h1
      · exact (rawTableAnswers_mem h1).1
      · obtain ⟨p, hp, hpn⟩ := List.mem_map.mp h1.1
        have := (rawTableAnswers_mem hp).1
        simpa [hpn] using this

set_option maxRecDepth 40000 in
/-- Witness for claim C5 on the concrete fixture. -/
theorem extractTableAnswers_keys_le_cap_witness : (1 : Nat) ≤ 100 :=
  extractTableAnswers_keys_le_cap fixtureBlocks 100 none 1 "CRUEL SUMMER" (by decide)

/-- Claim C10: every value of the map returned by `extractTableAnswers` is a
non-empty string — the raw pass records only non-empty text and every
correction-pass write is a key entry guarded to be non-empty. -/
theorem extractTableAnswers_values_nonempty (blocks : List Block) (maxQ : Nat)
    (answerKey : Option AMap) (p : Nat × String)
    (h : p ∈ extractTableAnswers blocks maxQ answerKey) : p.2 ≠ "" := by
  unfold extractTableAnswers at h
  cases answerKey with
  | none => exact (rawTableAnswers_mem h).2
  | some key =>
      rcases applyOCRCorrections_entries h with h1 | h1
      · exact (rawTableAnswers_mem h1).2
      · obtain ⟨_, j, hj, hne⟩ := h1
        exact hne

set_option maxRecDepth 40000 in
/-- Witness for claim C10 on the concrete fixture. -/
theorem extractTableAnswers_values_nonempty_witness : ("CRUEL SUMMER" : String) ≠ "" :=
  extractTableAnswers_values_nonempty fixtureBlocks 100 none (1, "CRUEL SUMMER") (by decide)

/-- Claim C6: within the raw table pass an answer is recorded only with a
resolved number at most the cap and non-empty text (first conjunct: every
recorded entry satisfies both), and a slot that already holds a non-empty
answer is never overwritten by a later row (second conjunct: row processing
preserves existing truthy entries). -/
theorem rawTable_first_assignment_wins :
    (∀ (blocks : List Block) (maxQ : Nat) (p : Nat × String),
        p ∈ rawTableAnswers blocks maxQ → p.1 ≤ maxQ ∧ p.2 ≠ "")
    ∧ (∀ (bm : List (String × Block)) (maxQ : Nat) (st : AMap × Nat × Nat)
        (row : List Block) (n : Nat) (v : String),
        getRec st.1 n = some v → v ≠ "" →
        getRec (processRow bm maxQ st row).1 n = some v) :=
  ⟨fun _ _ _ h => rawTableAnswers_mem h,
   fun _ _ _ _ _ _ hv hne => processRow_preserve hv hne⟩

set_option maxRecDepth 40000 in
/-- Witness for claim C6: a recorded fixture entry, and preservation of an
existing entry across a row. -/
theorem rawTable_first_assignment_wins_witness :
    ((1 : Nat) ≤ 100 ∧ ("CRUEL SUMMER" : String) ≠ "")
    ∧ getRec (processRow (buildBlockMap fixtureBlocks) 100 ([(1, "A")], 1, 26) []).1 1
        = some "A" :=
  ⟨rawTable_first_assignment_wins.1 fixtureBlocks 100 (1, "CRUEL SUMMER") (by decide),
   rawTable_first_assignment_wins.2 (buildBlockMap fixtureBlocks) 100 ([(1, "A")], 1, 26) []
     1 "A" (by decide) (by decide)⟩

/-! ## Claim C8: totality of the engine

The only genuinely index-based accesses of the engine are the matrix
accesses `matrix[i-1][j]`, `matrix[i][j-1]`, `matrix[i-1][j-1]` of
`levenshteinDistance` (the source asserts them non-null with `!`); the
substring and record accesses are total in JS.  The checked variant below
returns `none` whenever one of those accesses would miss, and is proved to
agree with the total function on every input. -/

theorem levRowAuxChecked_eq (c1 : Char) :
    ∀ (cs : List Char) (ps : List Nat) (diag left : Nat), ps.length = cs.length →
    levRowAuxChecked c1 cs ps diag left = some (levRowAux c1 cs ps diag left)
    ∧ (levRowAux c1 cs ps diag left).length = cs.length := by
  intro cs
  induction cs with
  | nil => intro ps diag left _; exact ⟨rfl, rfl⟩
  | cons c2 cs ih =>
      intro ps diag left h
      cases ps with
      | nil => simp at h
      | cons up ps =>
          simp only [List.length_cons, Nat.succ.injEq] at h
          obtain ⟨h1, h2⟩ := ih ps up
            (Nat.min (up + 1) (Nat.min (left + 1) (diag + if c1 = c2 then 0 else 1))) h
          constructor
          · simp only [levRowAuxChecked, levRowAux]
            rw [h1]
          · simp only [levRowAux, List.length_cons, h2]

theorem levRowChecked_eq (c1 : Char) (cs2 : List Char) (prev : List Nat) (i : Nat)
    (h : prev.length = cs2.length + 1) :
    levRowChecked c1 cs2 prev i = some (levRow c1 cs2 prev i)
    ∧ (levRow c1 cs2 prev i).length = cs2.length + 1 := by
  cases prev with
  | nil => simp at h
  | cons diag rest =>
      simp only [List.length_cons, Nat.succ.injEq] at h
      obtain ⟨h1, h2⟩ := levRowAuxChecked_eq c1 cs2 rest diag i h
      constructor
      · simp only [levRowChecked, levRow, h1, Option.map_some']
      · simp only [levRow, List.length_cons, h2]

theorem levRowsChecked_eq (cs2 : List Char) :
    ∀ (cs1 : List Char) (row : List Nat) (i : Nat), row.length = cs2.length + 1 →
    levRowsChecked cs1 cs2 (some row) i = some (levRows cs1 cs2 row i)
    ∧ (levRows cs1 cs2 row i).length = cs2.length + 1 := by
  intro cs1
  induction cs1 with
  | nil => intro row i h; exact ⟨rfl, h⟩
  | cons c cs ih =>
      intro row i h
      obtain ⟨h1, h2⟩ := levRowChecked_eq c cs2 row i h
      obtain ⟨h3, h4⟩ := ih (levRow c cs2 row i) (i + 1) h2
      constructor
      · simp only [levRowsChecked, levRows, h1, h3]
      · simpa [levRows] using h4

theorem getLast?_eq_getLastD {l : List Nat} (h : l ≠ []) : l.getLast? = some (l.getLastD 0) := by
  cases l with
  | nil => exact absurd rfl h
  | cons a t =>
      rw [List.getLastD_eq_getLast?]
      cases hg : (a :: t).getLast? with
      | none => exact absurd (List.getLast?_eq_none_iff.mp hg) (by simp)
      | some x => rfl

/-- Claim C8: the engine is total — the checked Levenshtein computation (all
matrix accesses verified) agrees with the total one on every input, the
correction passes never create keys (so they are defined on every map), and
every corrected value is either the originally extracted text left in place
or a value of the answer key (an unresolved mismatch keeps the original
text). -/
theorem corrections_total :
    (∀ s1 s2 : String, levenshteinDistanceChecked s1 s2 = some (levenshteinDistance s1 s2))
    ∧ (∀ (m key : AMap) (p : Nat × String), p ∈ applyOCRCorrections m (some key) →
        p.1 ∈ keysOf m)
    ∧ (∀ (m key : AMap) (p : Nat × String), p ∈ applyOCRCorrections m (some key) →
        p ∈ m ∨ ∃ j, getRec key j = some p.2) := by
  refine ⟨fun s1 s2 => ?_, fun m key p h => ?_, fun m key p h => ?_⟩
  · unfold levenshteinDistanceChecked levenshteinDistance
    dsimp only
    obtain ⟨h1, h2⟩ := levRowsChecked_eq s2.toList s1.toList
      (List.range (s2.toList.length + 1)) 1 (by simp)
    rw [h1]
    exact getLast?_eq_getLastD (by intro hc; rw [hc] at h2; simp at h2)
  · rcases applyOCRCorrections_entries h with h1 | h1
    · simpa [keysOf] using List.mem_map_of_mem Prod.fst h1
    · exact h1.1
  · rcases applyOCRCorrections_entries h with h1 | h1
    · exact Or.inl h1
    · obtain ⟨_, j, hj, _⟩ := h1
      exact Or.inr ⟨j, hj⟩

set_option maxRecDepth 40000 in
/-- Witness for claim C8 at concrete inputs. -/
theorem corrections_total_witness :
    levenshteinDistanceChecked "KITTEN" "SITTING" = some (levenshteinDistance "KITTEN" "SITTING")
    ∧ (1 : Nat) ∈ keysOf [(1, "A")]
    ∧ ((1, "A") ∈ ([(1, "A")] : AMap) ∨ ∃ j, getRec [(1, "A")] j = some "A") :=
  ⟨corrections_total.1 "KITTEN" "SITTING",
   corrections_total.2.1 [(1, "A")] [(1, "A")] (1, "A") (by decide),
   corrections_total.2.2 [(1, "A")] [(1, "A")] (1, "A") (by decide)⟩
